import Mathlib

/-!
# Verification of the BoltDB-backed TTL cache layer (`database` package)

Shallow embedding of the cache/store operations of `BoltDatabase`
(`ParseCacheItem`, `GetCachedBytes`, `SetCachedBytes`, `CacheCleanup`,
`BatchDelete`, `Seek`, `Has`, `GetBytes`, `Delete`) and proofs about them.

Go byte strings (`[]byte`, `string`) are modelled as `List Nat` (one `Nat`
per byte; only the order and equality of byte values matter).  A Bolt
bucket is modelled as an association list of key/value pairs; the B+tree
invariant (keys strictly ascending in byte-lexicographic order, hence
unique) is carried as an explicit hypothesis where a proof needs it.
Go `int`/`int64` are modelled as `Int`.  The wall clock (`util.NowInt64`,
`util.NowPlusSecondsInt`) is passed in as an explicit `now : Int`
parameter.  Go errors are `Option String` (`none` = nil error), matching
the literal `errors.New` strings of the source.
-/

namespace BoltDB

/-- A byte string: Go `[]byte` / `string`. -/
abbrev Bytes := List Nat

/-- A bucket's contents: the key/value pairs of one Bolt bucket, in the
B+tree's iteration order. -/
abbrev Bucket := List (Bytes × Bytes)

/-- Byte-lexicographic strict order on byte strings, as used by Bolt's
B+tree (`bytes.Compare(a, b) < 0`). -/
def lexLt : Bytes → Bytes → Bool
  | _, [] => false
  | [], _ :: _ => true
  | a :: as, b :: bs => a < b || (a == b && lexLt as bs)

/-- The Bolt bucket invariant: keys strictly ascending (hence unique). -/
def SortedBucket (b : Bucket) : Prop :=
  b.Pairwise (fun x y => lexLt x.1 y.1 = true)

instance : DecidablePred SortedBucket := fun b =>
  inferInstanceAs (Decidable (b.Pairwise _))

/-- `tx.Bucket(bucket).Get(key)`: Bolt returns the stored value, or `nil`
for an absent key.  `none` = absent. -/
def blookup : Bucket → Bytes → Option Bytes
  | [], _ => none
  | kv :: rest, k => if kv.1 == k then some kv.2 else blookup rest k

/-- The byte string Bolt's `Get` hands back (`nil` and the empty value are
both the empty byte string at this level). -/
def bget (b : Bucket) (k : Bytes) : Bytes := (blookup b k).getD []

/-- `tx.Bucket(bucket).Put(key, value)`: upsert, keeping the B+tree's key
order. -/
def bput : Bucket → Bytes → Bytes → Bucket
  | [], k, v => [(k, v)]
  | kv :: rest, k, v =>
    if lexLt k kv.1 then (k, v) :: kv :: rest
    else if k == kv.1 then (k, v) :: rest
    else kv :: bput rest k v

/-- `tx.Bucket(bucket).Delete(key)`: the embedding of `Delete` (source
line 662), removing the key's record. -/
def bdel (b : Bucket) (k : Bytes) : Bucket :=
  b.filter (fun kv => !(kv.1 == k))

/-- `BatchDelete` (source line 669): one transaction deleting each listed
key in turn. -/
def BatchDelete (b : Bucket) (keys : List Bytes) : Bucket :=
  keys.foldl (fun acc key => bdel acc key) b

/-- `Has` (source line 523): `ret = len(b.Get([]byte(key))) > 0`. -/
def Has (b : Bucket) (k : Bytes) : Bool :=
  decide (0 < (bget b k).length)

/-- `GetBytes` (source line 534): reads the value inside a view
transaction whose closure always returns `nil`, so the returned error is
always nil (`none`). -/
def GetBytes (b : Bucket) (k : Bytes) : Bytes × Option String :=
  (bget b k, none)

/-- Digit-by-digit accumulation of `strconv.ParseInt`'s base-10 loop over
a byte string (most significant digit first; a digit byte `'0'..'9'` is
48..57); `none` on any non-digit byte. -/
def parseDigits : Bytes → Nat → Option Nat
  | [], acc => some acc
  | c :: cs, acc =>
    if 48 ≤ c ∧ c ≤ 57 then parseDigits cs (acc * 10 + (c - 48)) else none

/-- `strconv.ParseInt(s, 10, 64)`, as used on the 10-byte expiry slice:
an optional `'+'` (43) or `'-'` (45) sign followed by at least one
decimal digit; `none` is a syntax error (Go then returns value 0).
The int64 range clamping of `ParseInt` cannot trigger on a 10-byte
input (magnitude at most 9999999999 < 2^63), so it is not modelled. -/
def goParseInt (s : Bytes) : Option Int :=
  match s with
  | [] => none
  | c :: cs =>
    if c = 43 then
      if cs = [] then none else (parseDigits cs 0).map Int.ofNat
    else if c = 45 then
      if cs = [] then none else (parseDigits cs 0).map (fun m => -(Int.ofNat m))
    else
      (parseDigits (c :: cs) 0).map Int.ofNat

/-- `ParseCacheItem` (source line 454): inputs shorter than 11 bytes give
`(0, nil)`; otherwise the first 10 bytes are parsed as a decimal integer
(the parse error is discarded, so a failed parse leaves the value 0) and
the payload is `item[11:]`. -/
def ParseCacheItem (item : Bytes) : Int × Bytes :=
  if item.length < 11 then (0, [])
  else ((goParseInt (item.take 10)).getD 0, item.drop 11)

/-- `GetCachedBytes` (source line 464) at clock reading `now`
(`util.NowInt64()`).  Returns the `(cacheValue, err)` pair together with
the bucket contents after the call (lazy deletion mutates the bucket). -/
def GetCachedBytes (b : Bucket) (now : Int) (k : Bytes) :
    (Bytes × Option String) × Bucket :=
  let value := bget b k
  if value.length = 0 then (([], none), b)
  else
    let r := ParseCacheItem value
    if 0 < r.1 ∧ r.1 < now then (([], some "Key Expired"), bdel b k)
    else if r.1 = 0 then (([], some "Invalid Key"), bdel b k)
    else ((r.2, none), b)

/-- Decimal digit bytes of a natural number, most significant first
(the digits `strconv.Itoa` emits), written with explicit fuel so that it
computes by kernel reduction; `natDigits` supplies enough fuel. -/
def natDigitsAux : Nat → Nat → Bytes
  | 0, _ => []
  | fuel + 1, n =>
    if n < 10 then [n + 48]
    else natDigitsAux fuel (n / 10) ++ [n % 10 + 48]

/-- Decimal digit bytes of a natural number, most significant first. -/
def natDigits (n : Nat) : Bytes := natDigitsAux (n + 1) n

/-- `strconv.Itoa`: plain decimal formatting, a `'-'` (45) prefix for
negative numbers and no zero padding. -/
def goItoa (i : Int) : Bytes :=
  if i < 0 then 45 :: natDigits (-i).toNat else natDigits i.toNat

/-- Modelled from the spec: `util.NowPlusSecondsInt(seconds)` (the `util`
package is outside the provided sources) is `now() + ttlSeconds` in Unix
seconds. -/
def nowPlusSeconds (now seconds : Int) : Int := now + seconds

/-- The stored cached value built by `SetCachedBytes` (source line 572):
`strconv.Itoa(util.NowPlusSecondsInt(seconds)) + "|"` prepended to the
payload; `'|'` is byte 124. -/
def encodeCached (now seconds : Int) (payload : Bytes) : Bytes :=
  goItoa (nowPlusSeconds now seconds) ++ 124 :: payload

/-- `SetCachedBytes` (source line 570) at clock reading `now`. -/
def SetCachedBytes (b : Bucket) (now : Int) (seconds : Int) (k : Bytes)
    (value : Bytes) : Bucket :=
  bput b k (encodeCached now seconds value)

/-- The removal test of `CacheCleanup`'s scan (source line 393):
`(expire > 0 && expire < now) || expire == 0`. -/
def shouldRemove (now : Int) (value : Bytes) : Bool :=
  let e := (ParseCacheItem value).1
  (decide (0 < e) && decide (e < now)) || decide (e = 0)

/-- The `toRemove` list `CacheCleanup` accumulates while iterating one
bucket (source lines 390-397), in iteration order. -/
def cleanupToRemove (now : Int) : Bucket → List Bytes
  | [] => []
  | kv :: rest =>
    if shouldRemove now kv.2 then kv.1 :: cleanupToRemove now rest
    else cleanupToRemove now rest

/-- One bucket's pass of `CacheCleanup` (source lines 382-406): scan the
whole bucket collecting `toRemove`, then issue a single `BatchDelete`
when anything was collected. -/
def CacheCleanupBucket (b : Bucket) (now : Int) : Bucket :=
  let toRemove := cleanupToRemove now b
  if toRemove = [] then b else BatchDelete b toRemove

/-- `Seek` (source line 430), modelled as the sequence of `(key, value)`
pairs handed to the callback, in order: the cursor's `Seek(bytePrefix)`
positions at the first key not below the target (`dropWhile` of the
smaller keys on the sorted bucket) and iteration continues while the key
is non-nil and `bytes.HasPrefix(k, bytePrefix)` holds (`takeWhile`). -/
def Seek (b : Bucket) (pfx : Bytes) : List (Bytes × Bytes) :=
  (b.dropWhile (fun kv => lexLt kv.1 pfx)).takeWhile
    (fun kv => pfx.isPrefixOf kv.1)

/-! ## Basic lemmas about the bucket operations -/

theorem blookup_bput_self (b : Bucket) (k v : Bytes) :
    blookup (bput b k v) k = some v := by
  induction b with
  | nil => simp [bput, blookup]
  | cons kv rest ih =>
    by_cases h1 : lexLt k kv.1 = true
    · simp [bput, h1, blookup]
    · by_cases h2 : k = kv.1
      · subst h2
        simp [bput, h1, blookup]
      · have hbeq : (k == kv.1) = false := beq_false_of_ne h2
        have hbeq' : (kv.1 == k) = false := beq_false_of_ne (Ne.symm h2)
        simp [bput, h1, hbeq, blookup, hbeq', ih]

theorem bget_bput_self (b : Bucket) (k v : Bytes) :
    bget (bput b k v) k = v := by
  simp [bget, blookup_bput_self]

theorem blookup_bdel_self (b : Bucket) (k : Bytes) :
    blookup (bdel b k) k = none := by
  induction b with
  | nil => simp [bdel, blookup]
  | cons kv rest ih =>
    by_cases h : kv.1 = k
    · simpa [bdel, h] using ih
    · have hbeq : (kv.1 == k) = false := beq_false_of_ne h
      simpa [bdel, List.filter_cons, hbeq, blookup] using ih

theorem BatchDelete_eq_filter (keys : List Bytes) (b : Bucket) :
    BatchDelete b keys = b.filter (fun kv => !(keys.contains kv.1)) := by
  induction keys generalizing b with
  | nil => simp [BatchDelete, List.filter_true]
  | cons k ks ih =>
    show BatchDelete (bdel b k) ks = _
    rw [ih, bdel, List.filter_filter]
    apply List.filter_congr
    intro kv _
    simp only [List.contains_cons, Bool.not_or, Bool.and_comm]

/-! ## C7: `BatchDelete` is idempotent -/

/-- C7: for every bucket and key set, a second `BatchDelete` with the same
keys leaves the bucket's key-value state unchanged. -/
theorem C7_BatchDelete_idempotent (b : Bucket) (keys : List Bytes) :
    BatchDelete (BatchDelete b keys) keys = BatchDelete b keys := by
  rw [BatchDelete_eq_filter, BatchDelete_eq_filter, List.filter_filter]
  apply List.filter_congr
  intro kv _
  simp [Bool.and_self]

/-! ## C9: `Has` is exactly non-empty presence -/

/-- C9: `Has(bucket, key)` is true iff a non-empty value is stored under
the key; it never consults the clock (no `now` argument even exists), so
expiration is ignored, and it is false both for an absent key and for a
key holding the empty value. -/
theorem C9_Has_iff_nonempty (b : Bucket) (k : Bytes) :
    Has b k = true ↔ ∃ v, blookup b k = some v ∧ v ≠ [] := by
  unfold Has bget
  cases h : blookup b k with
  | none => simp
  | some v => simp [List.length_pos]

/-! ## C6: `ParseCacheItem` on short and long inputs -/

/-- C6: `ParseCacheItem` returns `(0, nil)` on any input shorter than 11
bytes (it is total, hence never panics); on inputs of length at least 11
it parses the first 10 bytes as a decimal integer — a failed parse
yielding expiry 0 — and returns the bytes after the separator position
(`item[11:]`) as the payload. -/
theorem C6_ParseCacheItem_spec (item : Bytes) :
    (item.length < 11 → ParseCacheItem item = (0, [])) ∧
    (11 ≤ item.length →
      ParseCacheItem item = ((goParseInt (item.take 10)).getD 0, item.drop 11)) ∧
    (11 ≤ item.length → goParseInt (item.take 10) = none →
      (ParseCacheItem item).1 = 0) := by
  refine ⟨fun h => by simp [ParseCacheItem, h], fun h => ?_, fun h hfail => ?_⟩
  · simp [ParseCacheItem, Nat.not_lt.mpr h]
  · simp [ParseCacheItem, Nat.not_lt.mpr h, hfail]

/-- Witness for C6 at the concrete 3-byte input `[1, 2, 3]`. -/
theorem C6_witness : ParseCacheItem [1, 2, 3] = (0, []) :=
  (C6_ParseCacheItem_spec [1, 2, 3]).1 (by decide)

/-! ## C10: the separator byte is never inspected -/

/-- Splitting `ParseCacheItem` over a `10-byte head ++ byte ++ tail`
decomposition of its input. -/
theorem parseCacheItem_split (pre : Bytes) (sep : Nat)
    (post : Bytes) (h : pre.length = 10) :
    ParseCacheItem (pre ++ sep :: post) = ((goParseInt pre).getD 0, post) := by
  have hlen : (pre ++ sep :: post).length = 11 + post.length := by
    simp [h]; omega
  have hnlt : ¬((pre ++ sep :: post).length < 11) := by omega
  have htake : (pre ++ sep :: post).take 10 = pre := List.take_left' h
  have hdrop : (pre ++ sep :: post).drop 11 = post := by
    have h10 : (pre ++ sep :: post).drop 10 = sep :: post := List.drop_left' h
    have : (pre ++ sep :: post).drop 11 = ((pre ++ sep :: post).drop 10).drop 1 := by
      rw [List.drop_drop]
    rw [this, h10]
    rfl
  unfold ParseCacheItem
  rw [if_neg hnlt, htake, hdrop]

/-- C10: for any 10-byte head `pre`, any byte `sep` in position 10, and
any tail, `ParseCacheItem` returns the integer parsed from `pre` and the
bytes from position 11 on — the result does not depend on `sep`, so a
value whose 11th byte is not `'|'` decodes exactly like a well-formed
record. -/
theorem C10_ParseCacheItem_ignores_byte10 (pre : Bytes) (sep : Nat)
    (post : Bytes) (h : pre.length = 10) :
    ParseCacheItem (pre ++ sep :: post) = ((goParseInt pre).getD 0, post) :=
  parseCacheItem_split pre sep post h

/-- Witness for C10: byte 88 (`'X'`) in the separator position decodes
exactly like a separator. -/
theorem C10_witness :
    ParseCacheItem ([48, 48, 48, 48, 48, 48, 48, 48, 49, 48] ++ 88 :: [97])
      = ((goParseInt [48, 48, 48, 48, 48, 48, 48, 48, 49, 48]).getD 0, [97]) :=
  C10_ParseCacheItem_ignores_byte10 _ 88 [97] (by decide)

/-! ## C4: absent keys produce no error at all -/

/-- C4 counterexample: reading an absent key gives an empty value with a
nil error — `Get`/`GetBytes` and `GetCachedBytes` report no NotFound
error, contradicting the claim that a NotFound error is returned. -/
theorem C4_counterexample :
    GetBytes [] [107] = ([], none) ∧
    GetCachedBytes [] 1700000000 [107] = (([], none), []) := by
  constructor <;> rfl

/-- C4 amended: for every bucket and every key that is absent (or holds a
zero-length value), `GetBytes` returns the empty byte string with a nil
error and `GetCachedBytes` returns a nil payload with a nil error and
leaves the bucket unchanged; absence and emptiness are indistinguishable
and no NotFound error is produced by this layer. -/
theorem C4_absent_no_error (b : Bucket) (now : Int) (k : Bytes)
    (h : blookup b k = none ∨ blookup b k = some []) :
    GetBytes b k = ([], none) ∧ GetCachedBytes b now k = (([], none), b) := by
  have hget : bget b k = [] := by
    rcases h with h | h <;> simp [bget, h]
  constructor
  · simp [GetBytes, hget]
  · simp [GetCachedBytes, hget]

/-- Witness for C4 amended at the empty bucket. -/
theorem C4_witness :
    GetBytes [] [107] = ([], none) ∧
    GetCachedBytes [] 0 [107] = (([], none), []) :=
  C4_absent_no_error [] 0 [107] (Or.inl rfl)

/-! ## C1: the expiration trichotomy of `GetCachedBytes` -/

/-- C1 counterexample: a stored record whose decoded expiry equals the
current time (`expiry == now == 1700000000`) IS returned as a valid hit
with nil error and no deletion, contradicting the claim that only
`expiry > now` is a valid hit. -/
theorem C1_counterexample :
    GetCachedBytes [([107], [49, 55, 48, 48, 48, 48, 48, 48, 48, 48, 124, 97])]
        1700000000 [107]
      = (([97], none), [([107], [49, 55, 48, 48, 48, 48, 48, 48, 48, 48, 124, 97])]) := by
  decide

/-- C1 amended: for a stored non-empty record, `GetCachedBytes` deletes
the key and reports Invalid when the decoded expiry is 0, deletes the key
and reports Expired when `0 < expiry < now`, and otherwise — the expiry
negative, or non-zero and at least `now` (so in particular
`expiry == now`) — returns the payload as a valid hit and leaves the
bucket unchanged. -/
theorem C1_GetCachedBytes_trichotomy (b : Bucket) (now : Int) (k item : Bytes)
    (hfind : blookup b k = some item) (hne : item ≠ []) :
    ((ParseCacheItem item).1 = 0 →
      GetCachedBytes b now k = (([], some "Invalid Key"), bdel b k)) ∧
    (0 < (ParseCacheItem item).1 ∧ (ParseCacheItem item).1 < now →
      GetCachedBytes b now k = (([], some "Key Expired"), bdel b k)) ∧
    ((ParseCacheItem item).1 < 0 ∨
        ((ParseCacheItem item).1 ≠ 0 ∧ now ≤ (ParseCacheItem item).1) →
      GetCachedBytes b now k = (((ParseCacheItem item).2, none), b)) := by
  have hget : bget b k = item := by simp [bget, hfind]
  have hlen : ¬(item.length = 0) := by
    simpa [List.length_eq_zero] using hne
  refine ⟨fun h0 => ?_, fun hex => ?_, fun hhit => ?_⟩
  · simp only [GetCachedBytes, hget, if_neg hlen]
    rw [if_neg (by simp [h0] : ¬(0 < (ParseCacheItem item).1 ∧ (ParseCacheItem item).1 < now)),
      if_pos h0]
  · simp only [GetCachedBytes, hget, if_neg hlen, if_pos hex]
  · rcases hhit with hneg | ⟨hnz, hge⟩
    · simp only [GetCachedBytes, hget, if_neg hlen]
      rw [if_neg (by omega : ¬(0 < (ParseCacheItem item).1 ∧ (ParseCacheItem item).1 < now)),
        if_neg (by omega : ¬((ParseCacheItem item).1 = 0))]
    · simp only [GetCachedBytes, hget, if_neg hlen]
      rw [if_neg (by omega : ¬(0 < (ParseCacheItem item).1 ∧ (ParseCacheItem item).1 < now)),
        if_neg hnz]

/-- Witness for C1 amended: a one-byte stored record decodes to expiry 0
and is deleted with an Invalid error. -/
theorem C1_witness :
    GetCachedBytes [([107], [120])] 5 [107]
      = (([], some "Invalid Key"), bdel [([107], [120])] [107]) :=
  (C1_GetCachedBytes_trichotomy [([107], [120])] 5 [107] [120]
    (by decide) (by decide)).1 (by decide)

/-! ## Decimal-digit lemmas for `strconv.Itoa` round-tripping -/

theorem natDigitsAux_congr :
    ∀ (f1 f2 n : Nat), n < f1 → n < f2 → natDigitsAux f1 n = natDigitsAux f2 n := by
  intro f1
  induction f1 with
  | zero => intro f2 n h1 _; omega
  | succ g1 ih =>
    intro f2 n h1 h2
    cases f2 with
    | zero => omega
    | succ g2 =>
      show (if n < 10 then [n + 48] else natDigitsAux g1 (n / 10) ++ [n % 10 + 48])
        = (if n < 10 then [n + 48] else natDigitsAux g2 (n / 10) ++ [n % 10 + 48])
      by_cases h : n < 10
      · simp [h]
      · have hlt : n / 10 < n := Nat.div_lt_self (by omega) (by omega)
        rw [if_neg h, if_neg h, ih g2 (n / 10) (by omega) (by omega)]

theorem natDigits_unfold (n : Nat) :
    natDigits n = if n < 10 then [n + 48]
      else natDigits (n / 10) ++ [n % 10 + 48] := by
  show (if n < 10 then [n + 48] else natDigitsAux n (n / 10) ++ [n % 10 + 48]) = _
  by_cases h : n < 10
  · simp [h]
  · have hlt : n / 10 < n := Nat.div_lt_self (by omega) (by omega)
    rw [if_neg h, if_neg h,
      natDigitsAux_congr n (n / 10 + 1) (n / 10) (by omega) (by omega)]
    rfl

theorem natDigits_ne_nil (n : Nat) : natDigits n ≠ [] := by
  rw [natDigits_unfold]
  by_cases h : n < 10 <;> simp [h]

theorem natDigits_mem_digit (n : Nat) :
    ∀ c ∈ natDigits n, 48 ≤ c ∧ c ≤ 57 := by
  induction n using Nat.strong_induction_on with
  | _ n ih =>
    intro c hc
    rw [natDigits_unfold] at hc
    by_cases h : n < 10
    · rw [if_pos h] at hc
      simp only [List.mem_singleton] at hc
      omega
    · rw [if_neg h] at hc
      simp only [List.mem_append, List.mem_singleton] at hc
      rcases hc with hc | hc
      · exact ih (n / 10) (Nat.div_lt_self (by omega) (by omega)) c hc
      · have : n % 10 < 10 := Nat.mod_lt _ (by omega)
        omega

theorem natDigits_len_le :
    ∀ (k n : Nat), n < 10 ^ (k + 1) → (natDigits n).length ≤ k + 1 := by
  intro k
  induction k with
  | zero =>
    intro n h
    rw [natDigits_unfold, if_pos (by simpa using h)]
    simp
  | succ k' ih =>
    intro n h
    rw [natDigits_unfold]
    by_cases h10 : n < 10
    · simp [h10]
    · rw [if_neg h10]
      have hdiv : n / 10 < 10 ^ (k' + 1) := by
        rw [Nat.div_lt_iff_lt_mul (by omega : 0 < 10)]
        calc n < 10 ^ (k' + 1 + 1) := h
          _ = 10 ^ (k' + 1) * 10 := by ring
      have := ih (n / 10) hdiv
      simp only [List.length_append, List.length_singleton]
      omega

theorem natDigits_len_ge :
    ∀ (k n : Nat), 10 ^ k ≤ n → k + 1 ≤ (natDigits n).length := by
  intro k
  induction k with
  | zero =>
    intro n _
    have := List.length_pos.mpr (natDigits_ne_nil n)
    omega
  | succ k' ih =>
    intro n h
    have h10 : ¬(n < 10) := by
      have hten : (10 : Nat) ≤ 10 ^ (k' + 1) := by
        calc (10 : Nat) = 10 ^ 1 := (pow_one 10).symm
          _ ≤ 10 ^ (k' + 1) := Nat.pow_le_pow_right (by omega) (by omega)
      omega
    rw [natDigits_unfold, if_neg h10]
    have hdiv : 10 ^ k' ≤ n / 10 := by
      rw [Nat.le_div_iff_mul_le (by omega : 0 < 10)]
      calc 10 ^ k' * 10 = 10 ^ (k' + 1) := by ring
        _ ≤ n := h
    have := ih (n / 10) hdiv
    simp only [List.length_append, List.length_singleton]
    omega

theorem parseDigits_append (l1 l2 : Bytes) (acc a : Nat)
    (h : parseDigits l1 acc = some a) :
    parseDigits (l1 ++ l2) acc = parseDigits l2 a := by
  induction l1 generalizing acc with
  | nil =>
    simp only [parseDigits, Option.some.injEq] at h
    subst h
    rfl
  | cons c cs ih =>
    simp only [parseDigits, List.cons_append] at h ⊢
    by_cases hc : 48 ≤ c ∧ c ≤ 57
    · rw [if_pos hc] at h ⊢
      exact ih _ h
    · rw [if_neg hc] at h
      cases h

theorem parseDigits_natDigits (n : Nat) :
    ∀ acc, parseDigits (natDigits n) acc
      = some (acc * 10 ^ (natDigits n).length + n) := by
  induction n using Nat.strong_induction_on with
  | _ n ih =>
    intro acc
    rw [natDigits_unfold]
    by_cases h : n < 10
    · rw [if_pos h]
      simp only [parseDigits]
      rw [if_pos (show 48 ≤ n + 48 ∧ n + 48 ≤ 57 by omega)]
      simp only [parseDigits, List.length_singleton, pow_one,
        Option.some.injEq]
      omega
    · rw [if_neg h]
      have hlt : n / 10 < n := Nat.div_lt_self (by omega) (by omega)
      have h1 := ih (n / 10) hlt acc
      rw [parseDigits_append _ _ _ _ h1]
      have hm : n % 10 < 10 := Nat.mod_lt _ (by omega)
      simp only [parseDigits]
      rw [if_pos (show 48 ≤ n % 10 + 48 ∧ n % 10 + 48 ≤ 57 by omega)]
      simp only [parseDigits, List.length_append, List.length_singleton,
        Option.some.injEq]
      have h3 : (acc * 10 ^ (natDigits (n / 10)).length + n / 10) * 10
            + (n % 10 + 48 - 48)
          = acc * (10 ^ (natDigits (n / 10)).length * 10)
            + (10 * (n / 10) + n % 10) := by
        have : n % 10 + 48 - 48 = n % 10 := by omega
        rw [this]
        ring
      rw [h3, Nat.div_add_mod, pow_succ]

theorem natDigits_head (n : Nat) :
    ∃ c cs, natDigits n = c :: cs ∧ 48 ≤ c ∧ c ≤ 57 := by
  cases h : natDigits n with
  | nil => exact absurd h (natDigits_ne_nil n)
  | cons c cs =>
    have := natDigits_mem_digit n c (by rw [h]; exact List.mem_cons_self _ _)
    exact ⟨c, cs, rfl, this.1, this.2⟩

theorem goParseInt_natDigits (n : Nat) :
    goParseInt (natDigits n) = some (Int.ofNat n) := by
  obtain ⟨c, cs, heq, hc1, hc2⟩ := natDigits_head n
  have hp : parseDigits (natDigits n) 0 = some n := by
    simpa using parseDigits_natDigits n 0
  rw [heq] at hp ⊢
  show goParseInt (c :: cs) = some (Int.ofNat n)
  simp only [goParseInt]
  rw [if_neg (by omega : ¬(c = 43)), if_neg (by omega : ¬(c = 45)), hp]
  rfl

/-! ## Round-trip of the TTL codec in the 10-digit era -/

/-- When `now + ttl` lies in `[10^9, 10^10)` (every Unix-seconds clock
reading between 2001 and 2286 with a reasonable ttl), `strconv.Itoa`
produces exactly 10 digit bytes and `ParseCacheItem` inverts
`SetCachedBytes`'s encoding. -/
theorem parse_encode (now ttl : Int) (payload : Bytes)
    (h1 : (1000000000 : Int) ≤ now + ttl) (h2 : now + ttl < 10000000000) :
    encodeCached now ttl payload
        = natDigits (now + ttl).toNat ++ 124 :: payload ∧
    (natDigits (now + ttl).toNat).length = 10 ∧
    (encodeCached now ttl payload).length = 11 + payload.length ∧
    ParseCacheItem (encodeCached now ttl payload) = (now + ttl, payload) := by
  have he0 : (0 : Int) ≤ now + ttl := by omega
  have henc : encodeCached now ttl payload
      = natDigits (now + ttl).toNat ++ 124 :: payload := by
    unfold encodeCached nowPlusSeconds goItoa
    rw [if_neg (by omega : ¬(now + ttl < 0))]
  have hge : 10 ^ 9 ≤ (now + ttl).toNat := by
    have : (1000000000 : Nat) ≤ (now + ttl).toNat := by omega
    norm_num
    omega
  have hlt : (now + ttl).toNat < 10 ^ (9 + 1) := by
    have : (now + ttl).toNat < 10000000000 := by omega
    norm_num
    omega
  have hlen10 : (natDigits (now + ttl).toNat).length = 10 := by
    have ha := natDigits_len_le 9 (now + ttl).toNat hlt
    have hb := natDigits_len_ge 9 (now + ttl).toNat hge
    omega
  have hparse : ParseCacheItem (encodeCached now ttl payload)
      = (now + ttl, payload) := by
    rw [henc, parseCacheItem_split _ _ _ hlen10, goParseInt_natDigits]
    simp [Int.toNat_of_nonneg he0]
  refine ⟨henc, hlen10, ?_, hparse⟩
  rw [henc]
  simp [hlen10]
  omega

/-! ## C3: the shape of the stored cached value -/

/-- C3 counterexample: `SetCachedBytes` with `now + ttl = 0` stores the
value `"0|"` (bytes `[48, 124]`), of length 2 — not a zero-padded
10-digit expiry, and shorter than 11 bytes.  `strconv.Itoa` does not
zero-pad. -/
theorem C3_counterexample :
    SetCachedBytes [] 1700000000 (-1700000000) [107] [] = [([107], [48, 124])] := by
  decide

/-- C3 amended: the stored cached value is the *unpadded* decimal
`strconv.Itoa` representation of `now()+ttlSeconds`, one separator byte
`'|'` (124), then the payload.  Whenever `now()+ttlSeconds` lies in
`[10^9, 10^10)` — every realistic clock reading with a moderate ttl —
that representation happens to be exactly 10 digit bytes, the stored
value has length `11 + len(payload)`, and its first 10 bytes are
digits. -/
theorem C3_encoding_shape (now ttl : Int) (payload : Bytes)
    (hlo : (1000000000 : Int) ≤ now + ttl) (hhi : now + ttl < 10000000000) :
    encodeCached now ttl payload
        = natDigits (now + ttl).toNat ++ 124 :: payload ∧
    (natDigits (now + ttl).toNat).length = 10 ∧
    (encodeCached now ttl payload).length = 11 + payload.length ∧
    ∀ c ∈ natDigits (now + ttl).toNat, 48 ≤ c ∧ c ≤ 57 := by
  obtain ⟨henc, hlen10, hlen, _⟩ := parse_encode now ttl payload hlo hhi
  exact ⟨henc, hlen10, hlen, natDigits_mem_digit _⟩

/-- Witness for C3 amended at `now = 1700000000`, `ttl = 60`. -/
theorem C3_witness :
    encodeCached 1700000000 60 [118]
        = natDigits ((1700000000 + 60 : Int)).toNat ++ 124 :: [118] ∧
    (natDigits ((1700000000 + 60 : Int)).toNat).length = 10 :=
  ⟨(C3_encoding_shape 1700000000 60 [118] (by norm_num) (by norm_num)).1,
   (C3_encoding_shape 1700000000 60 [118] (by norm_num) (by norm_num)).2.1⟩

/-! ## C2: Set then Get round trip under the ttl -/

/-- C2 counterexample: with `ttlSeconds = 10^10 > 0` set at clock
1700000000, a read at clock 1700000001 — strictly before ttl seconds
have elapsed — already reports "Key Expired" and deletes the key: the
11-digit `Itoa` output makes the 10-byte read-back parse a wrong
expiry.  This refutes the claim's universal quantification over all
`ttlSeconds > 0`. -/
theorem C2_counterexample :
    GetCachedBytes (SetCachedBytes [] 1700000000 10000000000 [107] [118])
        1700000001 [107]
      = (([], some "Key Expired"), []) := by
  decide

/-- C2 amended: for every bucket, key, value and `ttlSeconds > 0` such
that `now + ttlSeconds` still fits in 10 decimal digits (in `[10^9,
10^10)`), `SetCached` then `GetCached` returns the value with no error at
any clock reading strictly before `now + ttl`, and at any reading
strictly after `now + ttl` returns a "Key Expired" error and leaves the
key deleted from the bucket. -/
theorem C2_SetCached_GetCached (b : Bucket) (now0 ttl : Int) (k v : Bytes)
    (t : Int) (httl : 0 < ttl) (hlo : (1000000000 : Int) ≤ now0 + ttl)
    (hhi : now0 + ttl < 10000000000) :
    (t < now0 + ttl →
      GetCachedBytes (SetCachedBytes b now0 ttl k v) t k
        = ((v, none), SetCachedBytes b now0 ttl k v)) ∧
    (now0 + ttl < t →
      GetCachedBytes (SetCachedBytes b now0 ttl k v) t k
        = (([], some "Key Expired"), bdel (SetCachedBytes b now0 ttl k v) k) ∧
      blookup (bdel (SetCachedBytes b now0 ttl k v) k) k = none) := by
  obtain ⟨henc, hlen10, hlen, hparse⟩ := parse_encode now0 ttl v hlo hhi
  have hget : bget (SetCachedBytes b now0 ttl k v) k = encodeCached now0 ttl v :=
    bget_bput_self b k (encodeCached now0 ttl v)
  have hnz : ¬((encodeCached now0 ttl v).length = 0) := by
    rw [hlen]; omega
  constructor
  · intro ht
    simp only [GetCachedBytes, hget, if_neg hnz, hparse]
    rw [if_neg (by omega : ¬(0 < now0 + ttl ∧ now0 + ttl < t)),
      if_neg (by omega : ¬(now0 + ttl = 0))]
  · intro ht
    refine ⟨?_, blookup_bdel_self _ k⟩
    simp only [GetCachedBytes, hget, if_neg hnz, hparse]
    rw [if_pos (by omega : 0 < now0 + ttl ∧ now0 + ttl < t)]

/-- Witness for C2 amended: a 60-second ttl set at clock 1700000000 is a
clean hit at clock 1700000030 and expired-and-deleted at clock
1700000100. -/
theorem C2_witness :
    (GetCachedBytes (SetCachedBytes [] 1700000000 60 [107] [118])
        1700000030 [107]
      = (([118], none), SetCachedBytes [] 1700000000 60 [107] [118])) ∧
    (GetCachedBytes (SetCachedBytes [] 1700000000 60 [107] [118])
        1700000100 [107]
      = (([], some "Key Expired"),
          bdel (SetCachedBytes [] 1700000000 60 [107] [118]) [107]) ∧
      blookup (bdel (SetCachedBytes [] 1700000000 60 [107] [118]) [107]) [107]
        = none) :=
  ⟨(C2_SetCached_GetCached [] 1700000000 60 [107] [118] 1700000030
      (by norm_num) (by norm_num) (by norm_num)).1 (by norm_num),
   (C2_SetCached_GetCached [] 1700000000 60 [107] [118] 1700000100
      (by norm_num) (by norm_num) (by norm_num)).2 (by norm_num)⟩

/-! ## C5: `CacheCleanup` removes exactly the dead records -/

theorem cleanupToRemove_subset_keys (now : Int) :
    ∀ (b : Bucket) (x : Bytes), x ∈ cleanupToRemove now b → x ∈ b.map Prod.fst := by
  intro b
  induction b with
  | nil => intro x hx; cases hx
  | cons kv rest ih =>
    intro x hx
    by_cases h : shouldRemove now kv.2
    · rw [cleanupToRemove, if_pos h] at hx
      cases hx with
      | head => simp
      | tail _ hx =>
        simp only [List.map_cons, List.mem_cons]
        exact Or.inr (ih x hx)
    · rw [cleanupToRemove, if_neg h] at hx
      simp only [List.map_cons, List.mem_cons]
      exact Or.inr (ih x hx)

theorem cleanup_contains (now : Int) :
    ∀ (b : Bucket), (b.map Prod.fst).Nodup → ∀ kv ∈ b,
      (cleanupToRemove now b).contains kv.1 = shouldRemove now kv.2 := by
  intro b
  induction b with
  | nil => intro _ kv h; cases h
  | cons x xs ih =>
    intro hnd kv hkv
    have hnd' := hnd
    rw [List.map_cons, List.nodup_cons] at hnd'
    obtain ⟨hxnot, hndxs⟩ := hnd'
    rcases List.mem_cons.mp hkv with rfl | hkv
    · by_cases h : shouldRemove now kv.2
      · rw [cleanupToRemove, if_pos h, h]
        simp [List.contains_cons]
      · rw [cleanupToRemove, if_neg h]
        have hmem : kv.1 ∉ cleanupToRemove now xs := fun hm =>
          hxnot (cleanupToRemove_subset_keys now xs kv.1 hm)
        have hsf : shouldRemove now kv.2 = false := Bool.eq_false_iff.mpr h
        rw [hsf]
        show List.elem kv.1 (cleanupToRemove now xs) = false
        rw [List.elem_eq_mem, decide_eq_false hmem]
    · have hne : (kv.1 == x.1) = false := by
        have : kv.1 ≠ x.1 := by
          intro heq
          exact hxnot (heq ▸ List.mem_map_of_mem Prod.fst hkv)
        exact beq_false_of_ne this
      by_cases h : shouldRemove now x.2
      · rw [cleanupToRemove, if_pos h]
        rw [List.contains_cons, hne, Bool.false_or]
        exact ih hndxs kv hkv
      · rw [cleanupToRemove, if_neg h]
        exact ih hndxs kv hkv

/-- C5: for every cache bucket whose records are each zero-expiry,
normally expired (`0 < expiry < now`) or not-yet-expired
(`now ≤ expiry`), one cleanup pass removes exactly the keys whose
decoded expiry is 0 or strictly below `now`, keeps every other
key-value pair unchanged and in order, and is one `BatchDelete` of the
`toRemove` list collected by the completed scan of the original
bucket. -/
theorem C5_CacheCleanup_exact (b : Bucket) (now : Int)
    (hnd : (b.map Prod.fst).Nodup)
    (hmix : ∀ kv ∈ b, (ParseCacheItem kv.2).1 = 0 ∨
      (0 < (ParseCacheItem kv.2).1 ∧ (ParseCacheItem kv.2).1 < now) ∨
      now ≤ (ParseCacheItem kv.2).1) :
    CacheCleanupBucket b now
      = b.filter (fun kv =>
          !(decide ((ParseCacheItem kv.2).1 = 0)
            || decide ((ParseCacheItem kv.2).1 < now))) ∧
    CacheCleanupBucket b now = BatchDelete b (cleanupToRemove now b) := by
  have hbatch : CacheCleanupBucket b now = BatchDelete b (cleanupToRemove now b) := by
    unfold CacheCleanupBucket
    by_cases h : cleanupToRemove now b = []
    · rw [if_pos h, h]
      rfl
    · rw [if_neg h]
  refine ⟨?_, hbatch⟩
  rw [hbatch, BatchDelete_eq_filter]
  apply List.filter_congr
  intro kv hkv
  rw [cleanup_contains now b hnd kv hkv]
  congr 1
  unfold shouldRemove
  rcases hmix kv hkv with h0 | ⟨h1, h2⟩ | h3
  · simp [h0]
  · simp [h1, h2]
  · have hnlt : ¬((ParseCacheItem kv.2).1 < now) := not_lt.mpr h3
    by_cases h0 : (ParseCacheItem kv.2).1 = 0 <;> simp [h0, hnlt]

/-- Witness for C5: a bucket holding one normally expired record
(expiry 1000), one zero-expiry record and one live record (expiry
1.8e9) at clock 1.7e9 keeps exactly the live record. -/
theorem C5_witness :
    CacheCleanupBucket
        [([97], [48, 48, 48, 48, 48, 48, 49, 48, 48, 48, 124, 120]),
         ([98], [48, 48, 48, 48, 48, 48, 48, 48, 48, 48, 124, 121]),
         ([99], [49, 56, 48, 48, 48, 48, 48, 48, 48, 48, 124, 122])] 1700000000
      = List.filter (fun kv =>
          !(decide ((ParseCacheItem kv.2).1 = 0)
            || decide ((ParseCacheItem kv.2).1 < 1700000000)))
          [([97], [48, 48, 48, 48, 48, 48, 49, 48, 48, 48, 124, 120]),
           ([98], [48, 48, 48, 48, 48, 48, 48, 48, 48, 48, 124, 121]),
           ([99], [49, 56, 48, 48, 48, 48, 48, 48, 48, 48, 124, 122])] :=
  (C5_CacheCleanup_exact _ 1700000000 (by decide) (by decide)).1

/-! ## C8: `Seek` enumerates exactly the prefixed keys, in order -/

theorem lexLt_nil_right (k : Bytes) : lexLt k [] = false := by
  cases k <;> rfl

theorem lexLt_nil_left (c : Nat) (cs : Bytes) : lexLt [] (c :: cs) = true := rfl

theorem lexLt_cons_iff (a b : Nat) (as bs : Bytes) :
    lexLt (a :: as) (b :: bs) = true ↔ a < b ∨ (a = b ∧ lexLt as bs = true) := by
  simp [lexLt]

theorem lexLt_cons_false_iff (a b : Nat) (as bs : Bytes) :
    lexLt (a :: as) (b :: bs) = false
      ↔ ¬(a < b) ∧ (a = b → lexLt as bs = false) := by
  constructor
  · intro h
    have h' : ¬(lexLt (a :: as) (b :: bs) = true) := by
      rw [h]; exact Bool.false_ne_true
    rw [lexLt_cons_iff] at h'
    refine ⟨fun hab => h' (Or.inl hab), fun heq => ?_⟩
    rcases hb : lexLt as bs with _ | _
    · rfl
    · exact absurd (Or.inr ⟨heq, hb⟩) h'
  · rintro ⟨h1, h2⟩
    rw [Bool.eq_false_iff]
    intro hcon
    rw [lexLt_cons_iff] at hcon
    rcases hcon with hab | ⟨heq, hrec⟩
    · exact h1 hab
    · rw [h2 heq] at hrec
      exact Bool.false_ne_true hrec

theorem lexLt_trans :
    ∀ (a b c : Bytes), lexLt a b = true → lexLt b c = true → lexLt a c = true := by
  intro a
  induction a with
  | nil =>
    intro b c _ hbc
    cases c with
    | nil => rw [lexLt_nil_right] at hbc; cases hbc
    | cons c0 cs => exact lexLt_nil_left c0 cs
  | cons a0 as ih =>
    intro b c hab hbc
    cases b with
    | nil => rw [lexLt_nil_right] at hab; cases hab
    | cons b0 bs =>
      cases c with
      | nil => rw [lexLt_nil_right] at hbc; cases hbc
      | cons c0 cs =>
        rw [lexLt_cons_iff] at hab hbc ⊢
        rcases hab with h1 | ⟨h2, h3⟩ <;> rcases hbc with h4 | ⟨h5, h6⟩
        · exact Or.inl (by omega)
        · exact Or.inl (by omega)
        · exact Or.inl (by omega)
        · exact Or.inr ⟨by omega, ih bs cs h3 h6⟩

theorem isPrefixOf_not_lexLt :
    ∀ (p k : Bytes), p.isPrefixOf k = true → lexLt k p = false := by
  intro p
  induction p with
  | nil => intro k _; exact lexLt_nil_right k
  | cons a ps ih =>
    intro k hp
    cases k with
    | nil => exact absurd hp (by simp)
    | cons b ks =>
      rw [List.isPrefixOf_cons₂, Bool.and_eq_true, beq_iff_eq] at hp
      obtain ⟨rfl, hp⟩ := hp
      rw [lexLt_cons_false_iff]
      exact ⟨by omega, fun _ => ih ks hp⟩

theorem isPrefixOf_between :
    ∀ (p x y : Bytes), p.isPrefixOf y = true → lexLt x p = false →
      lexLt x y = true → p.isPrefixOf x = true := by
  intro p
  induction p with
  | nil => intro x y _ _ _; simp
  | cons a ps ih =>
    intro x y hpy hxp hxy
    cases y with
    | nil => exact absurd hpy (by simp)
    | cons b ys =>
      rw [List.isPrefixOf_cons₂, Bool.and_eq_true, beq_iff_eq] at hpy
      obtain ⟨rfl, hpy⟩ := hpy
      cases x with
      | nil =>
        rw [lexLt_nil_left] at hxp
        exact absurd hxp (by simp)
      | cons c xs =>
        rw [lexLt_cons_false_iff] at hxp
        obtain ⟨hca, hrest⟩ := hxp
        rw [lexLt_cons_iff] at hxy
        rcases hxy with h1 | ⟨h2, h3⟩
        · exact absurd h1 hca
        · subst h2
          rw [List.isPrefixOf_cons₂, Bool.and_eq_true, beq_iff_eq]
          exact ⟨rfl, ih xs ys hpy (hrest rfl) h3⟩

theorem takeWhile_isPrefixOf_eq_filter (pfx : Bytes) :
    ∀ (l : Bucket), l.Pairwise (fun x y => lexLt x.1 y.1 = true) →
      (∀ kv ∈ l, lexLt kv.1 pfx = false) →
      l.takeWhile (fun kv => pfx.isPrefixOf kv.1)
        = l.filter (fun kv => pfx.isPrefixOf kv.1) := by
  intro l
  induction l with
  | nil => intro _ _; rfl
  | cons x xs ih =>
    intro hs hge
    rw [List.pairwise_cons] at hs
    obtain ⟨hhead, hs'⟩ := hs
    rw [List.takeWhile_cons, List.filter_cons]
    by_cases hp : pfx.isPrefixOf x.1 = true
    · rw [if_pos hp, if_pos hp,
        ih hs' (fun kv hkv => hge kv (List.mem_cons_of_mem _ hkv))]
    · rw [if_neg hp, if_neg hp]
      symm
      rw [List.filter_eq_nil_iff]
      intro kv hkv hcon
      exact hp (isPrefixOf_between pfx x.1 kv.1 hcon
        (hge x (List.mem_cons_self _ _)) (hhead kv hkv))

/-- C8: on a bucket satisfying the B+tree ordering invariant, `Seek`
hands the callback exactly the `(key, value)` pairs whose key carries the
prefix — each exactly once, with its stored value, in ascending key
order — and never a pair whose key lacks the prefix. -/
theorem C8_Seek_prefix_filter (b : Bucket) (pfx : Bytes)
    (hs : SortedBucket b) :
    Seek b pfx = b.filter (fun kv => pfx.isPrefixOf kv.1) ∧
    (Seek b pfx).Pairwise (fun x y => lexLt x.1 y.1 = true) := by
  have hmain : Seek b pfx = b.filter (fun kv => pfx.isPrefixOf kv.1) := by
    unfold SortedBucket at hs
    induction b with
    | nil => rfl
    | cons kv rest ih =>
      rw [List.pairwise_cons] at hs
      obtain ⟨hhead, hs'⟩ := hs
      show (List.dropWhile (fun kv => lexLt kv.1 pfx)
          (kv :: rest)).takeWhile (fun kv => pfx.isPrefixOf kv.1) = _
      rw [List.dropWhile_cons]
      by_cases h : lexLt kv.1 pfx = true
      · rw [if_pos h]
        have hnp : ¬(pfx.isPrefixOf kv.1 = true) := fun hcon => by
          rw [isPrefixOf_not_lexLt pfx kv.1 hcon] at h
          exact Bool.false_ne_true h
        rw [List.filter_cons, if_neg hnp]
        exact ih hs'
      · rw [if_neg h]
        have hall : ∀ kv' ∈ (kv :: rest), lexLt kv'.1 pfx = false := by
          intro kv' hkv'
          cases hkv' with
          | head => exact Bool.eq_false_iff.mpr h
          | tail _ hmem =>
            rcases hb : lexLt kv'.1 pfx with _ | _
            · rfl
            · exact absurd (lexLt_trans kv.1 kv'.1 pfx (hhead kv' hmem) hb) h
        exact takeWhile_isPrefixOf_eq_filter pfx (kv :: rest)
          (List.pairwise_cons.mpr ⟨hhead, hs'⟩) hall
  refine ⟨hmain, ?_⟩
  rw [hmain]
  exact hs.sublist (List.filter_sublist b)

/-- Witness for C8: the spec's scenario bucket
`{"admin.1": "c", "user.1": "a", "user.2": "b"}` scanned with prefix
`"user."`. -/
theorem C8_witness :
    Seek [([97, 100, 109, 105, 110, 46, 49], [99]),
          ([117, 115, 101, 114, 46, 49], [97]),
          ([117, 115, 101, 114, 46, 50], [98])] [117, 115, 101, 114, 46]
      = List.filter (fun kv => [117, 115, 101, 114, 46].isPrefixOf kv.1)
          [([97, 100, 109, 105, 110, 46, 49], [99]),
           ([117, 115, 101, 114, 46, 49], [97]),
           ([117, 115, 101, 114, 46, 50], [98])] :=
  (C8_Seek_prefix_filter _ _ (by decide)).1

end BoltDB
